import Mathlib

/-!
Shallow embedding of the chirpy service core (Go): the profanity filter
`cleanChirp` with its helper `stripPunct`, the `handlerValidateChirp`
endpoint, the `handlerReset` endpoint of the database-backed variant, and
the atomic hit counter `fileserverHits`.

Strings are modelled as `List Char` (the Unicode code points of the Go
string).  The Go builtin `len` on a string counts UTF-8 bytes; it is
modelled by `utf8Len`.  The Unicode classification tables behind the Go
functions `unicode.IsLetter`, `unicode.IsNumber` and `strings.ToLower`
are treated as parameters `A : Char → Bool` (is the character a letter
or a number) and `L : Char → Char` (rune-wise lowercasing): every
theorem below that involves the filter holds for an arbitrary
classification, hence in particular for the real Unicode tables.  For
concrete evaluation the ASCII fragment of those tables is provided as
`asciiAlnum` and `asciiLower`; they coincide with the Go functions on
ASCII characters, and all concrete inputs used below are ASCII (or reach
only code paths where the classification is not consulted).
-/

/-- Code points of a string literal, the `List Char` view of a Go string. -/
def lc (s : String) : List Char := s.data

/-- Number of bytes of the UTF-8 encoding of one code point.  Models the
contribution of one rune to the Go builtin `len` of a string. -/
def charBytes (c : Char) : Nat :=
  if c.toNat < 128 then 1
  else if c.toNat < 2048 then 2
  else if c.toNat < 65536 then 3
  else 4

/-- UTF-8 byte length of a string: the Go builtin `len(s)`. -/
def utf8Len (s : List Char) : Nat := (s.map charBytes).sum

/-- ASCII fragment of the Go predicate
`unicode.IsLetter(r) || unicode.IsNumber(r)`; agrees with it on ASCII. -/
def asciiAlnum (c : Char) : Bool := c.isAlpha || c.isDigit

/-- ASCII fragment of rune-wise `strings.ToLower`; agrees with it on ASCII. -/
def asciiLower (c : Char) : Char := c.toLower

/-- The profanity denylist, from
`var profanity = []string{"kerfuffle", "sharbert", "fornax"}`. -/
def profanity : List (List Char) := [lc "kerfuffle", lc "sharbert", lc "fornax"]

/-- Go source of `stripPunct`: `strings.Map` keeping exactly the runes with
`unicode.IsLetter(r) || unicode.IsNumber(r)`, dropping all others.
`A` is the classification parameter. -/
def stripPunct (A : Char → Bool) (word : List Char) : List Char :=
  word.filter A

/-- Rune-wise `strings.ToLower`, with the lowercase table `L` as parameter. -/
def toLowerStr (L : Char → Char) (word : List Char) : List Char :=
  word.map L

/-- The inner loop of `cleanChirp`: `for _, profane := range profanity`
compares `lowerWord` against each denylist entry and on the first match
replaces the word by `"****"` and breaks; if no entry matches, the word
is kept. -/
def censorLoop (word lowerWord : List Char) : List (List Char) → List Char
  | [] => word
  | p :: ps => if lowerWord = p then lc "****" else censorLoop word lowerWord ps

/-- The body of the `for i, word := range words` loop of `cleanChirp`:
censor one token. -/
def censorWord (A : Char → Bool) (L : Char → Char) (word : List Char) : List Char :=
  censorLoop word (toLowerStr L (stripPunct A word)) profanity

/-- Go `strings.Split(body, " ")`: split on single space characters;
always returns at least one token, consecutive spaces produce empty
tokens. -/
def splitOnSpace : List Char → List (List Char)
  | [] => [[]]
  | c :: rest =>
    if c = ' ' then [] :: splitOnSpace rest
    else (c :: (splitOnSpace rest).headI) :: (splitOnSpace rest).tail

/-- Tail part of `strings.Join(words, " ")`: a space before each further
token. -/
def joinSpaceAux : List (List Char) → List Char
  | [] => []
  | t :: ts => ' ' :: t ++ joinSpaceAux ts

/-- Go `strings.Join(words, " ")`. -/
def joinSpace : List (List Char) → List Char
  | [] => []
  | t :: ts => t ++ joinSpaceAux ts

/-- Go source of `cleanChirp`: split on spaces, censor each token,
rejoin with spaces. -/
def cleanChirp (A : Char → Bool) (L : Char → Char) (body : List Char) : List Char :=
  joinSpace ((splitOnSpace body).map (censorWord A L))

/-- The filter at the ASCII instantiation of the Unicode tables. -/
def cleanChirpA (body : List Char) : List Char :=
  cleanChirp asciiAlnum asciiLower body

/-! HTTP layer of the chirp validation endpoint. -/

/-- HTTP method of a request, as far as the handlers inspect it. -/
inductive Method
  | get
  | post
  | other
deriving DecidableEq

/-- Result of `json.NewDecoder(r.Body).Decode(&req)` for a `chirpRequest`:
either the decoder fails, or it yields the `body` field as a string. -/
inductive ReqBody
  | undecodable
  | chirp (body : List Char)
deriving DecidableEq

/-- The responses `handlerValidateChirp` can produce. -/
inductive HttpResponse
  | methodNotAllowed
  | badRequestError (msg : List Char)
  | okCleaned (cleanedBody : List Char)
deriving DecidableEq

/-- Go source of `handlerValidateChirp`, with the censor it calls on the
accepted path abstracted into the parameter `censor` (the handler calls
`cleanChirp`; see `handlerValidateChirp` below): reject non-POST with 405,
reject an undecodable body with 400 and the error text
`Something went wrong`, reject a body of more than 140 bytes with 400 and
the error text `Chirp is too long`, otherwise answer 200 with the
censored body. -/
def handlerValidateChirpWith (censor : List Char → List Char)
    (m : Method) (r : ReqBody) : HttpResponse :=
  if m ≠ Method.post then HttpResponse.methodNotAllowed
  else
    match r with
    | ReqBody.undecodable => HttpResponse.badRequestError (lc "Something went wrong")
    | ReqBody.chirp body =>
      if utf8Len body > 140 then HttpResponse.badRequestError (lc "Chirp is too long")
      else HttpResponse.okCleaned (censor body)

/-- The chirp validation handler with its real censor `cleanChirp`. -/
def handlerValidateChirp (A : Char → Bool) (L : Char → Char)
    (m : Method) (r : ReqBody) : HttpResponse :=
  handlerValidateChirpWith (cleanChirp A L) m r

/-- The handler at the ASCII instantiation of the Unicode tables. -/
def validateA (m : Method) (r : ReqBody) : HttpResponse :=
  handlerValidateChirp asciiAlnum asciiLower m r

/-- Models the Go `encoding/json` decoding of a syntactically valid JSON
object into `chirpRequest`: the struct field `Body` is filled from the
`body` key when present and is left at its zero value, the empty string,
when the key is absent. -/
def decodeChirpRequest (bodyField : Option (List Char)) : ReqBody :=
  ReqBody.chirp (bodyField.getD [])

/-! The reset endpoint of the database-backed variant. -/

/-- The mutable state `handlerReset` touches: the hit counter
`fileserverHits` (raw value) and the persisted user rows behind
`cfg.db.DeleteAllUsers`.  User rows are opaque to the handler, hence a
type parameter. -/
structure ResetState (α : Type) where
  hits : Nat
  users : List α
deriving DecidableEq

/-- The responses `handlerReset` can produce. -/
inductive ResetResponse
  | forbidden
  | serverError
  | okReset
deriving DecidableEq

/-- Go source of `handlerReset` (database-backed variant): first
`cfg.fileserverHits.Store(0)`, then the platform gate answering 403 when
`cfg.Platform != "dev"`, then `DeleteAllUsers` answering 500 on a store
failure (modelled by the flag `deleteFails`) and 200 on success. -/
def handlerReset {α : Type} (platform : List Char) (deleteFails : Bool)
    (st : ResetState α) : ResetState α × ResetResponse :=
  let st1 : ResetState α := { st with hits := 0 }
  if platform ≠ lc "dev" then (st1, ResetResponse.forbidden)
  else if deleteFails then (st1, ResetResponse.serverError)
  else ({ st1 with users := [] }, ResetResponse.okReset)

/-! The hit counter.  `fileserverHits` is an `atomic.Int32`; each of
`Add(1)`, `Store(0)` and `Load()` is a single indivisible step, so a
concurrent execution of increments and resets is exactly an arbitrary
interleaving, i.e. an arbitrary finite sequence of the two operations.
The raw 32-bit pattern is modelled as a natural number below 2^32;
`Load` returns its two-complement signed reading. -/

/-- One atomic operation on the counter. -/
inductive CounterOp
  | inc
  | reset
deriving DecidableEq

/-- Effect of one atomic operation on the raw 32-bit value:
`Add(1)` wraps around at 2^32, `Store(0)` zeroes. -/
def applyOp (s : Nat) : CounterOp → Nat
  | CounterOp.inc => (s + 1) % 2 ^ 32
  | CounterOp.reset => 0

/-- Raw counter value after a sequence of atomic operations. -/
def runOps (s : Nat) (ops : List CounterOp) : Nat := ops.foldl applyOp s

/-- Signed reading of the raw 32-bit value: what `Load()` returns as an
`int32`. -/
def toSigned (s : Nat) : Int :=
  if s < 2 ^ 31 then (s : Int) else (s : Int) - 2 ^ 32

/-- Exact (unbounded) count of increments since the last reset, starting
from a prior count `n`. -/
def countSince (n : Nat) (ops : List CounterOp) : Nat :=
  ops.foldl (fun k op => match op with | CounterOp.inc => k + 1 | CounterOp.reset => 0) n

/-- Number of increments after the last reset in a sequence of
operations (the whole sequence when it has no reset). -/
def incsSinceReset (ops : List CounterOp) : Nat :=
  countSince 0 ops

/-! Helper lemmas. -/

/-- Reference censor, written from the specification text: split on single
space characters; for each token strip every character that is not a
letter or a digit, lowercase the stripped result, and compare it against
the fixed denylist `kerfuffle`, `sharbert`, `fornax`; on exact match
replace the original token with the literal `****`, otherwise keep the
token; rejoin with single spaces. -/
def censorSpecToken (A : Char → Bool) (L : Char → Char) (t : List Char) : List Char :=
  if (t.filter A).map L = lc "kerfuffle" ∨ (t.filter A).map L = lc "sharbert" ∨
      (t.filter A).map L = lc "fornax"
  then lc "****" else t

/-- Reference definition of the whole filter, from the specification text. -/
def censorSpec (A : Char → Bool) (L : Char → Char) (text : List Char) : List Char :=
  joinSpace ((splitOnSpace text).map (censorSpecToken A L))

example : cleanChirpA (lc "This is a kerfuffle opinion I need to share") =
    lc "This is a **** opinion I need to share" := by decide

example : cleanChirpA (lc "I hear Kansas is kerfuffling nobody here") =
    lc "I hear Kansas is kerfuffling nobody here" := by decide

example : cleanChirpA (lc "fornax SHARBERT Kerfuffle!") = lc "**** **** ****" := by
  decide

theorem one_le_charBytes (c : Char) : 1 ≤ charBytes c := by
  unfold charBytes
  split
  · omega
  · split
    · omega
    · split <;> omega

theorem length_le_utf8Len (s : List Char) : s.length ≤ utf8Len s := by
  induction s with
  | nil => simp [utf8Len]
  | cons c cs ih =>
    simp only [utf8Len, List.map_cons, List.sum_cons, List.length_cons] at *
    have := one_le_charBytes c
    omega

theorem censorLoop_eq (w lw : List Char) (ps : List (List Char)) :
    censorLoop w lw ps = if lw ∈ ps then lc "****" else w := by
  induction ps with
  | nil => simp [censorLoop]
  | cons p ps ih =>
    by_cases h : lw = p
    · simp [censorLoop, h]
    · simp [censorLoop, h, ih, List.mem_cons]

theorem censorWord_eq (A : Char → Bool) (L : Char → Char) (w : List Char) :
    censorWord A L w =
      if toLowerStr L (stripPunct A w) ∈ profanity then lc "****" else w := by
  unfold censorWord
  exact censorLoop_eq w (toLowerStr L (stripPunct A w)) profanity

theorem six_le_length_of_mem_profanity (p : List Char) (hp : p ∈ profanity) :
    6 ≤ p.length := by
  simp only [profanity, List.mem_cons, List.not_mem_nil, or_false] at hp
  rcases hp with h | h | h <;> subst h <;> decide

theorem length_lowerStrip_le (A : Char → Bool) (L : Char → Char) (w : List Char) :
    (toLowerStr L (stripPunct A w)).length ≤ w.length := by
  simp only [toLowerStr, stripPunct, List.length_map]
  exact List.length_filter_le A w

/-- If a token matches the denylist it has at least six code points. -/
theorem six_le_length_of_match (A : Char → Bool) (L : Char → Char) (w : List Char)
    (h : toLowerStr L (stripPunct A w) ∈ profanity) : 6 ≤ w.length := by
  have h6 := six_le_length_of_mem_profanity _ h
  have hle := length_lowerStrip_le A L w
  omega

theorem splitOnSpace_ne_nil (s : List Char) : splitOnSpace s ≠ [] := by
  cases s with
  | nil => simp [splitOnSpace]
  | cons c rest => rw [splitOnSpace]; split <;> simp

theorem no_space_mem_splitOnSpace (s : List Char) :
    ∀ t ∈ splitOnSpace s, ' ' ∉ t := by
  induction s with
  | nil =>
    intro t ht
    simp only [splitOnSpace, List.mem_singleton] at ht
    subst ht
    simp
  | cons c rest ih =>
    intro t ht
    rw [splitOnSpace] at ht
    cases hsp : splitOnSpace rest with
    | nil => exact absurd hsp (splitOnSpace_ne_nil rest)
    | cons u us =>
      rw [hsp] at ht
      simp only [List.headI, List.tail] at ht
      have hu : ' ' ∉ u := ih u (by rw [hsp]; exact List.mem_cons_self u us)
      have hus : ∀ v ∈ us, ' ' ∉ v := fun v hv =>
        ih v (by rw [hsp]; exact List.mem_cons_of_mem u hv)
      by_cases hc : c = ' '
      · rw [if_pos hc] at ht
        rcases List.mem_cons.mp ht with h1 | h1
        · subst h1; simp
        · rcases List.mem_cons.mp h1 with h2 | h2
          · subst h2; exact hu
          · exact hus t h2
      · rw [if_neg hc] at ht
        rcases List.mem_cons.mp ht with h1 | h1
        · subst h1
          intro hin
          rcases List.mem_cons.mp hin with h2 | h2
          · exact hc h2.symm
          · exact hu h2
        · exact hus t h1

theorem joinSpace_splitOnSpace (s : List Char) :
    joinSpace (splitOnSpace s) = s := by
  induction s with
  | nil => simp [splitOnSpace, joinSpace, joinSpaceAux]
  | cons c rest ih =>
    rw [splitOnSpace]
    cases hsp : splitOnSpace rest with
    | nil => exact absurd hsp (splitOnSpace_ne_nil rest)
    | cons u us =>
      rw [hsp] at ih
      simp only [joinSpace] at ih
      by_cases hc : c = ' '
      · rw [if_pos hc, hc]
        simp only [joinSpace, joinSpaceAux, List.nil_append, List.cons_append]
        rw [ih]
      · rw [if_neg hc]
        simp only [joinSpace, List.headI, List.tail, List.cons_append]
        rw [ih]

theorem splitOnSpace_append (t s : List Char) (h : ' ' ∉ t) :
    splitOnSpace (t ++ s) =
      (t ++ (splitOnSpace s).headI) :: (splitOnSpace s).tail := by
  induction t with
  | nil =>
    simp only [List.nil_append]
    cases hsp : splitOnSpace s with
    | nil => exact absurd hsp (splitOnSpace_ne_nil s)
    | cons u us => simp [List.headI, List.tail]
  | cons c t ih =>
    have hc : c ≠ ' ' := fun hce => h (hce ▸ List.mem_cons_self c t)
    have ht : ' ' ∉ t := fun hm => h (List.mem_cons_of_mem c hm)
    rw [List.cons_append, splitOnSpace, if_neg hc, ih ht]
    simp [List.headI, List.tail, List.cons_append]

theorem splitOnSpace_joinSpace (ts : List (List Char)) :
    ts ≠ [] → (∀ t ∈ ts, ' ' ∉ t) → splitOnSpace (joinSpace ts) = ts := by
  induction ts with
  | nil =>
    intro hne _
    exact absurd rfl hne
  | cons t ts ih =>
    intro _ hsp
    have ht : ' ' ∉ t := hsp t (List.mem_cons_self t ts)
    cases ts with
    | nil =>
      have h1 := splitOnSpace_append t [] ht
      simp only [splitOnSpace, List.headI, List.tail, List.append_nil] at h1
      simpa [joinSpace, joinSpaceAux] using h1
    | cons u us =>
      have hrec := ih (by simp) (fun v hv => hsp v (List.mem_cons_of_mem t hv))
      have hj : joinSpace (u :: us) = u ++ joinSpaceAux us := rfl
      simp only [joinSpace, joinSpaceAux, List.cons_append]
      rw [splitOnSpace_append t _ ht]
      rw [splitOnSpace, if_pos rfl, ← hj, hrec]
      simp [List.headI, List.tail]

theorem no_space_censorWord (A : Char → Bool) (L : Char → Char) (w : List Char)
    (h : ' ' ∉ w) : ' ' ∉ censorWord A L w := by
  rw [censorWord_eq]
  split
  · decide
  · exact h

theorem censorWord_asterisks (A : Char → Bool) (L : Char → Char) :
    censorWord A L (lc "****") = lc "****" := by
  have hnot : toLowerStr L (stripPunct A (lc "****")) ∉ profanity := by
    intro hmem
    have h6 := six_le_length_of_mem_profanity _ hmem
    have hle := length_lowerStrip_le A L (lc "****")
    have h4 : (lc "****").length = 4 := rfl
    omega
  rw [censorWord_eq, if_neg hnot]

theorem censorWord_idem (A : Char → Bool) (L : Char → Char) (w : List Char) :
    censorWord A L (censorWord A L w) = censorWord A L w := by
  by_cases h : toLowerStr L (stripPunct A w) ∈ profanity
  · rw [censorWord_eq A L w, if_pos h]
    exact censorWord_asterisks A L
  · rw [censorWord_eq A L w, if_neg h]
    rw [censorWord_eq, if_neg h]

theorem cleanChirp_idem (A : Char → Bool) (L : Char → Char) (body : List Char) :
    cleanChirp A L (cleanChirp A L body) = cleanChirp A L body := by
  unfold cleanChirp
  have hne : (splitOnSpace body).map (censorWord A L) ≠ [] := by
    intro hnil
    exact splitOnSpace_ne_nil body (List.map_eq_nil_iff.mp hnil)
  have hspf : ∀ t ∈ (splitOnSpace body).map (censorWord A L), ' ' ∉ t := by
    intro t htm
    rcases List.mem_map.mp htm with ⟨u, hu, rfl⟩
    exact no_space_censorWord A L u (no_space_mem_splitOnSpace body u hu)
  rw [splitOnSpace_joinSpace _ hne hspf, List.map_map]
  have hcc : censorWord A L ∘ censorWord A L = censorWord A L :=
    funext (fun w => censorWord_idem A L w)
  rw [hcc]

theorem censorWord_length_le (A : Char → Bool) (L : Char → Char) (w : List Char) :
    (censorWord A L w).length ≤ w.length := by
  by_cases h : toLowerStr L (stripPunct A w) ∈ profanity
  · rw [censorWord_eq, if_pos h]
    have h6 := six_le_length_of_match A L w h
    have h4 : (lc "****").length = 4 := rfl
    omega
  · rw [censorWord_eq, if_neg h]

theorem censorWord_utf8Len_le (A : Char → Bool) (L : Char → Char) (w : List Char) :
    utf8Len (censorWord A L w) ≤ utf8Len w := by
  by_cases h : toLowerStr L (stripPunct A w) ∈ profanity
  · rw [censorWord_eq, if_pos h]
    have h6 := six_le_length_of_match A L w h
    have hb := length_le_utf8Len w
    have h4 : utf8Len (lc "****") = 4 := by decide
    omega
  · rw [censorWord_eq, if_neg h]

theorem joinSpaceAux_length_le (f : List Char → List Char)
    (h : ∀ t, (f t).length ≤ t.length) (ts : List (List Char)) :
    (joinSpaceAux (ts.map f)).length ≤ (joinSpaceAux ts).length := by
  induction ts with
  | nil => simp [joinSpaceAux]
  | cons t ts ih =>
    simp only [List.map_cons, joinSpaceAux, List.cons_append, List.length_cons,
      List.length_append]
    have := h t
    omega

theorem joinSpace_length_le (f : List Char → List Char)
    (h : ∀ t, (f t).length ≤ t.length) (ts : List (List Char)) :
    (joinSpace (ts.map f)).length ≤ (joinSpace ts).length := by
  cases ts with
  | nil => simp [joinSpace]
  | cons t ts =>
    simp only [List.map_cons, joinSpace, List.length_append]
    have h1 := h t
    have h2 := joinSpaceAux_length_le f h ts
    omega

theorem joinSpaceAux_utf8Len_le (f : List Char → List Char)
    (h : ∀ t, utf8Len (f t) ≤ utf8Len t) (ts : List (List Char)) :
    utf8Len (joinSpaceAux (ts.map f)) ≤ utf8Len (joinSpaceAux ts) := by
  induction ts with
  | nil => simp [joinSpaceAux]
  | cons t ts ih =>
    simp only [List.map_cons, joinSpaceAux, List.cons_append, utf8Len,
      List.sum_cons, List.map_append, List.sum_append]
    have := h t
    simp only [utf8Len] at this ih
    omega

theorem joinSpace_utf8Len_le (f : List Char → List Char)
    (h : ∀ t, utf8Len (f t) ≤ utf8Len t) (ts : List (List Char)) :
    utf8Len (joinSpace (ts.map f)) ≤ utf8Len (joinSpace ts) := by
  cases ts with
  | nil => simp [joinSpace]
  | cons t ts =>
    simp only [List.map_cons, joinSpace, utf8Len, List.map_append, List.sum_append]
    have h1 := h t
    have h2 := joinSpaceAux_utf8Len_le f h ts
    simp only [utf8Len] at h1 h2
    omega

theorem cleanChirp_length_le (A : Char → Bool) (L : Char → Char) (body : List Char) :
    (cleanChirp A L body).length ≤ body.length := by
  conv_rhs => rw [← joinSpace_splitOnSpace body]
  exact joinSpace_length_le _ (censorWord_length_le A L) _

theorem cleanChirp_utf8Len_le (A : Char → Bool) (L : Char → Char) (body : List Char) :
    utf8Len (cleanChirp A L body) ≤ utf8Len body := by
  conv_rhs => rw [← joinSpace_splitOnSpace body]
  exact joinSpace_utf8Len_le _ (censorWord_utf8Len_le A L) _

theorem runOps_mod_eq (ops : List CounterOp) : ∀ n : Nat,
    runOps (n % 2 ^ 32) ops = countSince n ops % 2 ^ 32 := by
  induction ops with
  | nil =>
    intro n
    simp [runOps, countSince]
  | cons op ops ih =>
    intro n
    cases op with
    | inc =>
      simp only [runOps, countSince, List.foldl_cons, applyOp] at *
      rw [Nat.mod_add_mod]
      exact ih (n + 1)
    | reset =>
      simp only [runOps, countSince, List.foldl_cons, applyOp] at *
      have h0 : (0 : Nat) = 0 % 2 ^ 32 := by norm_num
      rw [h0]
      exact ih 0

theorem runOps_zero_eq (ops : List CounterOp) :
    runOps 0 ops = incsSinceReset ops % 2 ^ 32 := by
  have h := runOps_mod_eq ops 0
  rw [Nat.zero_mod] at h
  exact h

theorem countSince_all_inc (ops : List CounterOp) : ∀ n : Nat,
    (∀ op ∈ ops, op = CounterOp.inc) → countSince n ops = n + ops.length := by
  induction ops with
  | nil =>
    intro n _
    simp [countSince]
  | cons op ops ih =>
    intro n hall
    have hop : op = CounterOp.inc := hall op (List.mem_cons_self op ops)
    subst hop
    simp only [countSince, List.foldl_cons] at *
    have h1 := ih (n + 1) (fun o ho => hall o (List.mem_cons_of_mem _ ho))
    rw [h1]
    simp only [List.length_cons]
    omega

theorem toSigned_of_lt (n : Nat) (h : n < 2 ^ 31) : toSigned n = (n : Int) := by
  rw [toSigned, if_pos h]

theorem cleanChirp_nil (A : Char → Bool) (L : Char → Char) :
    cleanChirp A L [] = [] := by
  have h : toLowerStr L (stripPunct A []) ∉ profanity := by
    intro hm
    have h6 := six_le_length_of_mem_profanity _ hm
    simp [toLowerStr, stripPunct] at h6
  unfold cleanChirp
  simp [splitOnSpace, joinSpace, joinSpaceAux, censorWord_eq, h]

set_option maxRecDepth 8192 in
/-- C1: the claim measures the 140 limit in Unicode code points, but the
Go handler tests `len(req.Body) > 140`, which counts UTF-8 bytes.  A body
of 71 copies of a two-byte code point has 71 code points (at most 140)
yet 142 bytes, and the handler rejects it with 400 `Chirp is too long`
where the claim promises acceptance. -/
theorem C1_counterexample :
    (List.replicate 71 'é').length ≤ 140 ∧
    validateA Method.post (ReqBody.chirp (List.replicate 71 'é')) =
      HttpResponse.badRequestError (lc "Chirp is too long") := by
  constructor
  · decide
  · decide

/-- C1 (amended): with the length of the body counted in UTF-8 bytes, the
validate-chirp handler of a POST request with a decodable body responds
200 with the censored body exactly when the byte length is at most 140,
and 400 `Chirp is too long` exactly when it exceeds 140.  Holds for every
Unicode classification `A`, `L`. -/
theorem C1_theorem (A : Char → Bool) (L : Char → Char) (body : List Char) :
    (utf8Len body ≤ 140 →
      handlerValidateChirp A L Method.post (ReqBody.chirp body) =
        HttpResponse.okCleaned (cleanChirp A L body)) ∧
    (140 < utf8Len body →
      handlerValidateChirp A L Method.post (ReqBody.chirp body) =
        HttpResponse.badRequestError (lc "Chirp is too long")) := by
  constructor
  · intro h
    simp [handlerValidateChirp, handlerValidateChirpWith, Nat.not_lt.mpr h]
  · intro h
    simp [handlerValidateChirp, handlerValidateChirpWith, h]

set_option maxRecDepth 8192 in
/-- C1 witness: both branches of the amended claim at concrete inputs. -/
theorem C1_witness :
    validateA Method.post (ReqBody.chirp (lc "hello")) =
      HttpResponse.okCleaned (lc "hello") ∧
    validateA Method.post (ReqBody.chirp (List.replicate 141 'a')) =
      HttpResponse.badRequestError (lc "Chirp is too long") := by
  constructor
  · have h := (C1_theorem asciiAlnum asciiLower (lc "hello")).1 (by decide)
    rw [validateA, h]
    decide
  · have h := (C1_theorem asciiAlnum asciiLower (List.replicate 141 'a')).2 (by decide)
    rw [validateA, h]

/-- C2: the filter of the source, `cleanChirp`, coincides with the
reference definition `censorSpec` written from the specification text,
for every input and every Unicode classification. -/
theorem C2_theorem (A : Char → Bool) (L : Char → Char) (body : List Char) :
    cleanChirp A L body = censorSpec A L body := by
  unfold cleanChirp censorSpec
  congr 1
  apply List.map_congr_left
  intro t _
  rw [censorWord_eq]
  unfold censorSpecToken
  have he : toLowerStr L (stripPunct A t) = (t.filter A).map L := rfl
  by_cases h : toLowerStr L (stripPunct A t) ∈ profanity
  · rw [if_pos h, if_pos (by rw [← he]; simpa [profanity] using h)]
  · rw [if_neg h, if_neg ?hneg]
    case hneg =>
      rw [← he]
      intro hor
      exact h (by simpa [profanity] using hor)

/-- C3: a body longer than 140 code points (hence longer than 140 bytes)
is rejected with 400 `Chirp is too long`, and the response does not
depend on the censor function at all: the length check short-circuits
before the profanity filter runs. -/
theorem C3_theorem (censor : List Char → List Char) (body : List Char)
    (h : 140 < body.length) :
    handlerValidateChirpWith censor Method.post (ReqBody.chirp body) =
      HttpResponse.badRequestError (lc "Chirp is too long") := by
  have hb : 140 < utf8Len body := lt_of_lt_of_le h (length_le_utf8Len body)
  simp [handlerValidateChirpWith, hb]

set_option maxRecDepth 8192 in
/-- C3 witness: a 141-character body is rejected as too long. -/
theorem C3_witness :
    handlerValidateChirpWith cleanChirpA Method.post
        (ReqBody.chirp (List.replicate 141 'a')) =
      HttpResponse.badRequestError (lc "Chirp is too long") :=
  C3_theorem cleanChirpA (List.replicate 141 'a') (by decide)

/-- C4: each `fileserverHits.Add(1)` is a single indivisible step, so a
concurrent execution of N increments is an arbitrary interleaving, i.e.
an arbitrary sequence of N atomic increments; from 0, reading after any
such sequence with N at most 10000 yields exactly N: no increment is
lost or double-counted. -/
theorem C4_theorem (ops : List CounterOp) (hall : ∀ op ∈ ops, op = CounterOp.inc)
    (hlen : ops.length ≤ 10000) :
    toSigned (runOps 0 ops) = (ops.length : Int) := by
  have h1 : runOps 0 ops = ops.length % 2 ^ 32 := by
    rw [runOps_zero_eq, incsSinceReset, countSince_all_inc ops 0 hall, Nat.zero_add]
  have hlt32 : ops.length < 2 ^ 32 := lt_of_le_of_lt hlen (by norm_num)
  have hlt31 : ops.length < 2 ^ 31 := lt_of_le_of_lt hlen (by norm_num)
  rw [h1, Nat.mod_eq_of_lt hlt32, toSigned_of_lt _ hlt31]

/-- C4 witness: five interleaved increments read back as five. -/
theorem C4_witness :
    toSigned (runOps 0 (List.replicate 5 CounterOp.inc)) = 5 :=
  (C4_theorem (List.replicate 5 CounterOp.inc) (by decide) (by decide)).trans (by decide)

/-- C5: the claim promises that outside the development platform the
reset does not take effect on the hit counter, but `handlerReset` stores
0 to the counter before the platform gate: on platform `prod`, with the
counter at 7, the request is answered 403 Forbidden yet the counter is 0
afterwards, not 7.  (The persisted users are indeed untouched.) -/
theorem C5_counterexample :
    (handlerReset (lc "prod") false ({ hits := 7, users := [0] } : ResetState Nat)).2 =
      ResetResponse.forbidden ∧
    (handlerReset (lc "prod") false ({ hits := 7, users := [0] } : ResetState Nat)).1.hits
      = 0 ∧
    ¬(handlerReset (lc "prod") false ({ hits := 7, users := [0] } : ResetState Nat)).1.hits
      = 7 := by
  refine ⟨by decide, by decide, by decide⟩

/-- C5 (amended): the hit counter is set to 0 unconditionally; when the
platform flag differs from `dev` the request is answered 403 Forbidden
and the persisted users are left unchanged, and when it equals `dev`
(and the store call succeeds) all users are deleted and the request is
answered 200. -/
theorem C5_theorem {α : Type} (platform : List Char) (st : ResetState α)
    (h : platform ≠ lc "dev") :
    handlerReset platform false st =
      ({ hits := 0, users := st.users }, ResetResponse.forbidden) ∧
    handlerReset (lc "dev") false st =
      ({ hits := 0, users := [] }, ResetResponse.okReset) := by
  constructor
  · simp [handlerReset, h]
  · simp [handlerReset]

/-- C5 witness: the amended claim at a concrete non-dev platform and
state. -/
theorem C5_witness :
    handlerReset (lc "prod") false ({ hits := 7, users := [3] } : ResetState Nat) =
      ({ hits := 0, users := [3] }, ResetResponse.forbidden) ∧
    handlerReset (lc "dev") false ({ hits := 7, users := [3] } : ResetState Nat) =
      ({ hits := 0, users := [] }, ResetResponse.okReset) :=
  C5_theorem (lc "prod") ({ hits := 7, users := [3] } : ResetState Nat) (by decide)

/-- C6: an undecodable request body on a POST is answered 400 with the
error text `Something went wrong`, independently of the censor function:
neither the length validation nor the profanity filter is reached. -/
theorem C6_theorem (censor : List Char → List Char) :
    handlerValidateChirpWith censor Method.post ReqBody.undecodable =
      HttpResponse.badRequestError (lc "Something went wrong") := by
  simp [handlerValidateChirpWith]

/-- C7: the claim asserts some input on which the censor is not
idempotent; in fact no such input exists, for any Unicode
classification: censored tokens are either unchanged (and still fail to
match) or `****` (which strips to at most four characters and can never
match a denylist word of six or more), and rejoining then resplitting on
spaces reproduces the tokens exactly. -/
theorem C7_counterexample :
    ¬ ∃ (A : Char → Bool) (L : Char → Char) (x : List Char),
        cleanChirp A L (cleanChirp A L x) ≠ cleanChirp A L x := by
  rintro ⟨A, L, x, hx⟩
  exact hx (cleanChirp_idem A L x)

/-- C7 (amended): the censor is idempotent on every input (so in
particular censoring twice is a fixed point on already-clean text). -/
theorem C7_theorem (A : Char → Bool) (L : Char → Char) (x : List Char) :
    cleanChirp A L (cleanChirp A L x) = cleanChirp A L x :=
  cleanChirp_idem A L x

/-- C8: the claim asserts every read is non-negative under arbitrary
sequences of increments and resets with 32-bit wraparound; after exactly
2^31 increments the signed 32-bit counter reads -2^31, which is
negative. -/
theorem C8_counterexample :
    toSigned (runOps 0 (List.replicate (2 ^ 31) CounterOp.inc)) < 0 := by
  have h1 : runOps 0 (List.replicate (2 ^ 31) CounterOp.inc) = 2 ^ 31 := by
    rw [runOps_zero_eq, incsSinceReset,
      countSince_all_inc _ 0 (fun op hop => List.eq_of_mem_replicate hop),
      Nat.zero_add, List.length_replicate]
    norm_num
  rw [h1, toSigned, if_neg (by norm_num)]
  norm_num

/-- C8 (amended): the counter starts at 0, and as long as fewer than
2^31 increments have completed since the last reset, a read returns
exactly that count, in particular a non-negative value. -/
theorem C8_theorem (ops : List CounterOp) (h : incsSinceReset ops < 2 ^ 31) :
    runOps 0 ([] : List CounterOp) = 0 ∧
    toSigned (runOps 0 ops) = (incsSinceReset ops : Int) ∧
    0 ≤ toSigned (runOps 0 ops) := by
  have hlt : incsSinceReset ops < 2 ^ 32 := lt_trans h (by norm_num)
  have h1 : runOps 0 ops = incsSinceReset ops := by
    rw [runOps_zero_eq, Nat.mod_eq_of_lt hlt]
  refine ⟨rfl, ?_, ?_⟩
  · rw [h1, toSigned_of_lt _ h]
  · rw [h1, toSigned_of_lt _ h]
    exact Int.natCast_nonneg _

/-- C8 witness: three increments followed by a read yield 3, a
non-negative value. -/
theorem C8_witness :
    toSigned (runOps 0 (List.replicate 3 CounterOp.inc)) =
      (incsSinceReset (List.replicate 3 CounterOp.inc) : Int) ∧
    0 ≤ toSigned (runOps 0 (List.replicate 3 CounterOp.inc)) := by
  have h := C8_theorem (List.replicate 3 CounterOp.inc) (by decide)
  exact ⟨h.2.1, h.2.2⟩

/-- C9: the censor never lengthens its input, neither in code points nor
in UTF-8 bytes (a matched token has at least six characters and is
replaced by the four-character `****`); hence an accepted chirp's
censored body also fits the 140-byte limit. -/
theorem C9_theorem (A : Char → Bool) (L : Char → Char) (body : List Char) :
    (cleanChirp A L body).length ≤ body.length ∧
    utf8Len (cleanChirp A L body) ≤ utf8Len body ∧
    (utf8Len body ≤ 140 → utf8Len (cleanChirp A L body) ≤ 140) :=
  ⟨cleanChirp_length_le A L body, cleanChirp_utf8Len_le A L body,
    fun h => le_trans (cleanChirp_utf8Len_le A L body) h⟩

/-- C9 witness: the bound at a concrete censored chirp. -/
theorem C9_witness :
    (cleanChirp asciiAlnum asciiLower (lc "a kerfuffle here")).length ≤
      (lc "a kerfuffle here").length ∧
    utf8Len (cleanChirp asciiAlnum asciiLower (lc "a kerfuffle here")) ≤ 140 := by
  refine ⟨(C9_theorem asciiAlnum asciiLower (lc "a kerfuffle here")).1, ?_⟩
  exact (C9_theorem asciiAlnum asciiLower (lc "a kerfuffle here")).2.2 (by decide)

/-- C10: a decodable JSON object without a `body` field (or with an
empty `body`) is not treated as malformed: the struct field stays at its
zero value, the empty string, and the handler answers 200 with an empty
censored body. -/
theorem C10_theorem (A : Char → Bool) (L : Char → Char) :
    handlerValidateChirp A L Method.post (decodeChirpRequest none) =
      HttpResponse.okCleaned [] ∧
    handlerValidateChirp A L Method.post (decodeChirpRequest (some [])) =
      HttpResponse.okCleaned [] := by
  have hc := cleanChirp_nil A L
  constructor <;>
    simp [handlerValidateChirp, handlerValidateChirpWith, decodeChirpRequest,
      utf8Len, hc]
